import Mathlib

/-!
Verification of the piece-table document core (src/src/lib.rs) and the
line-break-indexed byte store (src/motto_core/src/indexed_string.rs).

Texts are modelled as lists of bytes (`List Nat`); the Rust `BTreeMap<usize,
Fragment>` is modelled as an association list kept sorted by key (every state
the library builds is produced by `mapInsert`/`mapRemove`, which preserve
sortedness, so iteration order of the list coincides with the map's ascending
key order).  Rust panics (`expect`, map indexing, the `?` early returns) are
modelled with `Option`: `none` is a panic.
-/

namespace PieceTable

/-- Embedding of `IndexedString` (src/motto_core/src/indexed_string.rs):
a byte store plus the set of positions of the byte `0x0A`.  The `BTreeSet`
is modelled as a duplicate-free list (`setInsert` below mirrors
`BTreeSet::insert` up to membership, which is all the claims speak about). -/
structure IndexedString where
  source : List Nat
  linebreaks : List Nat
deriving DecidableEq, Repr

/-- Membership-faithful model of `BTreeSet::insert`. -/
def setInsert (s : List Nat) (x : Nat) : List Nat :=
  if x ∈ s then s else s ++ [x]

/-- Model of `IndexedString::find_linebreaks(source, byte_offset)`: positions
`index + byte_offset` of every `0x0A` byte of `source`. -/
def IndexedString.find_linebreaks : List Nat → Nat → List Nat
  | [], _ => []
  | c :: rest, off =>
    if c = 10 then off :: IndexedString.find_linebreaks rest (off + 1)
    else IndexedString.find_linebreaks rest (off + 1)

/-- Model of `IndexedString::new()`. -/
def IndexedString.new : IndexedString := ⟨[], []⟩

/-- Model of `IndexedString::from(source)` (named `fromBytes` because `from` is a Lean
keyword): stores the bytes and indexes their line breaks. -/
def IndexedString.fromBytes (source : List Nat) : IndexedString :=
  ⟨source, (IndexedString.find_linebreaks source 0).foldl setInsert []⟩

/-- Model of `IndexedString::append(text)`: the line breaks of `text` are located with
offset `self.source.len()` (the pre-append length) and inserted, then the
store is extended. -/
def IndexedString.append (s : IndexedString) (text : List Nat) : IndexedString :=
  ⟨s.source ++ text,
   (IndexedString.find_linebreaks text s.source.length).foldl setInsert s.linebreaks⟩

/-- Model of `IndexedString::len()`. -/
def IndexedString.len (s : IndexedString) : Nat := s.source.length

/-- Model of `Source` (fragment backing-store tag). -/
inductive Source where
  | Insertion : Source
  | Original : Source
deriving DecidableEq, Repr

/-- Model of `Fragment`: a window `[byte_offset, byte_offset + byte_length)` into one of
the two stores. -/
structure Fragment where
  byte_offset : Nat
  byte_length : Nat
  source : Source
deriving DecidableEq, Repr

/-- Model of `Fragment::new(source, byte_offset, byte_length)`. -/
def Fragment.new (src : Source) (byte_offset byte_length : Nat) : Fragment :=
  ⟨byte_offset, byte_length, src⟩

/-- Model of `Fragment::from_string(text)`: an `Original` fragment spanning the store. -/
def Fragment.from_string (text : IndexedString) : Fragment :=
  Fragment.new Source.Original 0 text.len

/-- Model of `Fragment::of_insertion(offset, size)`. -/
def Fragment.of_insertion (offset size : Nat) : Fragment :=
  Fragment.new Source.Insertion offset size

/-- Modelled from the spec: `Fragment::resize(new_offset, new_length)` lives in
the `fragment` module declared by src/src/lib.rs, whose file is not present
under src/src/; per spec §4.B it "mutates the window", i.e. replaces the
offset and length. -/
def Fragment.resize (f : Fragment) (new_offset new_length : Nat) : Fragment :=
  { f with byte_offset := new_offset, byte_length := new_length }

/-- Model of `Fragment::get_slice(source)`: the designated byte range of the store. -/
def Fragment.get_slice (f : Fragment) (src : IndexedString) : List Nat :=
  (src.source.drop f.byte_offset).take f.byte_length

/-- Model of `FragmentOperation` from src/src/lib.rs. -/
inductive FragmentOperation where
  | Insert : Nat → Fragment → FragmentOperation
  | Split : Nat → Nat → FragmentOperation
  | Trim : Nat → Nat → FragmentOperation
  | Delete : Nat → FragmentOperation
  | none : FragmentOperation
deriving DecidableEq, Repr

/-- Model of `FragmentUpdate { operation, move_to, key }`. -/
structure FragmentUpdate where
  operation : FragmentOperation
  move_to : Nat
  key : Nat
deriving DecidableEq, Repr

/-- Model of `DeletionRange { fragment, deletion }`; a `Range<usize>` is a pair
(start, end). -/
structure DeletionRange where
  fragment : Nat × Nat
  deletion : Nat × Nat

/-- Model of `BTreeMap::insert` on a key-sorted association list (replaces an equal
key, keeps sortedness). -/
def mapInsert (k : Nat) (v : Fragment) : List (Nat × Fragment) → List (Nat × Fragment)
  | [] => [(k, v)]
  | e :: rest =>
    if k < e.1 then (k, v) :: e :: rest
    else if k = e.1 then (k, v) :: rest
    else e :: mapInsert k v rest

/-- Model of `BTreeMap::remove` on a key-sorted association list. -/
def mapRemove (k : Nat) : List (Nat × Fragment) → List (Nat × Fragment)
  | [] => []
  | e :: rest => if e.1 = k then rest else e :: mapRemove k rest

/-- Model of `BTreeMap` lookup on an association list. -/
def mapLookup (k : Nat) : List (Nat × Fragment) → Option Fragment
  | [] => Option.none
  | e :: rest => if e.1 = k then some e.2 else mapLookup k rest

/-- Model of `self.fragments.range(..=start).rev().next()`: the entry with the largest
key `≤ start` of a key-sorted association list. -/
def floorEntry (start : Nat) (m : List (Nat × Fragment)) : Option (Nat × Fragment) :=
  (m.filter (fun e => e.1 ≤ start)).getLast?

/-- Model of `Document`. -/
structure Document where
  fragments : List (Nat × Fragment)
  insertions : IndexedString
  original : IndexedString
deriving DecidableEq, Repr

/-- Model of `Document::create_fragment_map(source)`. -/
def Document.create_fragment_map (src : IndexedString) : List (Nat × Fragment) :=
  [(0, Fragment.from_string src)]

/-- Model of `Document::from(text)` (named `fromBytes`). -/
def Document.fromBytes (text : List Nat) : Document :=
  { fragments := Document.create_fragment_map (IndexedString.fromBytes text)
    insertions := IndexedString.new
    original := IndexedString.fromBytes text }

/-- Model of `Document::new()`. -/
def Document.new : Document := Document.fromBytes []

/-- Model of `Document::len()`: `last_key + last_fragment.byte_length`; the `expect`
on an empty fragment map is a panic, hence `Option`. -/
def Document.lenOpt (d : Document) : Option Nat :=
  d.fragments.getLast?.map (fun e => e.1 + e.2.byte_length)

/-- Model of `Document::get_fragment_source(fragment)`. -/
def Document.get_fragment_source (d : Document) (f : Fragment) : IndexedString :=
  match f.source with
  | Source.Insertion => d.insertions
  | Source.Original => d.original

/-- The `Display` implementation: concatenate every fragment's slice in
ascending key order. -/
def Document.render (d : Document) : List Nat :=
  (d.fragments.map (fun e => e.2.get_slice (d.get_fragment_source e.2))).flatten

/-- Model of `Document::find_affected_fragments(start_byte)`: the covering fragment
(largest key `≤ start_byte`) and everything after it; `none` models the
`expect("Empty fragment set")` panic. -/
def find_affected_fragments (m : List (Nat × Fragment)) (start_byte : Nat) :
    Option (List (Nat × Fragment)) :=
  (floorEntry start_byte m).map (fun e => m.filter (fun x => e.1 ≤ x.1))

/-- Model of `Document::get_operation_for_fragment(ranges)`: classify one fragment
against a deletion range. -/
def get_operation_for_fragment (ranges : DeletionRange) : FragmentUpdate :=
  if ranges.deletion.1 ≤ ranges.fragment.1 ∧ ranges.fragment.2 ≤ ranges.deletion.2 then
    { operation := FragmentOperation.Delete (ranges.fragment.2 - ranges.fragment.1)
      move_to := ranges.fragment.1
      key := ranges.fragment.1 }
  else if ranges.fragment.1 < ranges.deletion.1 ∧ ranges.deletion.2 < ranges.fragment.2 then
    { operation := FragmentOperation.Split ranges.deletion.1 ranges.deletion.2
      move_to := ranges.fragment.1
      key := ranges.fragment.1 }
  else
    let trim_end : Nat :=
      if ranges.fragment.1 < ranges.deletion.1 ∧ ranges.deletion.1 < ranges.fragment.2 then
        ranges.fragment.2 - ranges.deletion.1
      else 0
    let trim_start : Nat :=
      if ranges.deletion.2 < ranges.fragment.2 ∧ ranges.fragment.1 < ranges.deletion.2 then
        ranges.deletion.2 - ranges.fragment.1
      else 0
    if trim_start = 0 ∧ trim_end = 0 then
      { operation := FragmentOperation.none
        move_to := ranges.fragment.1
        key := ranges.fragment.1 }
    else
      { operation := FragmentOperation.Trim trim_start trim_end
        move_to := ranges.fragment.1
        key := ranges.fragment.1 }

/-- Model of `Document::calc_deleted_bytes(op)`. -/
def calc_deleted_bytes : FragmentOperation → Nat
  | FragmentOperation.Split s e => e - s
  | FragmentOperation.Trim s e => s + e
  | FragmentOperation.Delete n => n
  | _ => 0

/-- The second pass of `get_changes_for_deletion`: set
`move_to := key - deleted_bytes` and accumulate the bytes the operation
deletes. -/
def adjustMoves : Nat → List FragmentUpdate → List FragmentUpdate
  | _, [] => []
  | db, u :: rest =>
    { u with move_to := u.key - db } :: adjustMoves (db + calc_deleted_bytes u.operation) rest

/-- Model of `Document::get_changes_for_deletion(range)`. -/
def get_changes_for_deletion (m : List (Nat × Fragment)) (range : Nat × Nat) :
    Option (List FragmentUpdate) :=
  (find_affected_fragments m range.1).map (fun frags =>
    adjustMoves 0 (frags.map (fun e =>
      get_operation_for_fragment ⟨(e.1, e.1 + e.2.byte_length), range⟩)))

/-- Model of `Document::get_changes_for_insertion(start_byte, ins)`: the first affected
fragment gets `Insert(start_byte - key, ins)` with `move_to = 0 + key`; every
later one gets `None` with `move_to = ins.byte_length + key`. -/
def get_changes_for_insertion (m : List (Nat × Fragment)) (start_byte : Nat) (ins : Fragment) :
    Option (List FragmentUpdate) :=
  (find_affected_fragments m start_byte).map (fun frags =>
    frags.enum.map (fun p =>
      if p.1 = 0 then
        { operation := FragmentOperation.Insert (start_byte - p.2.1) ins
          move_to := 0 + p.2.1
          key := p.2.1 }
      else
        { operation := FragmentOperation.none
          move_to := ins.byte_length + p.2.1
          key := p.2.1 }))

/-- Model of `Document::split_fragment(change, (stop, resume))`: removes the entry at
`change.key` (left half), builds the right half, resizes the left; `none`
models the `?` on a missing key.  Returns the map after the removal together
with the keyed halves `(move_to, left)` and `(resume, right)`. -/
def split_fragment (m : List (Nat × Fragment)) (change : FragmentUpdate)
    (stop resume : Nat) :
    Option (List (Nat × Fragment) × ((Nat × Fragment) × (Nat × Fragment))) :=
  match mapLookup change.key m with
  | Option.none => Option.none
  | some left0 =>
    let m1 := mapRemove change.key m
    let frag_offset_diff := resume - change.key
    let right := Fragment.new left0.source (left0.byte_offset + frag_offset_diff)
      (left0.byte_length - frag_offset_diff)
    let left := left0.resize left0.byte_offset (stop - change.key)
    some (m1, ((change.move_to, left), (resume, right)))

/-- Model of `Document::trim_fragment(change, (start, end))`; a missing key (the `?`)
leaves the document unchanged, as in the callers that discard the `Option`. -/
def trim_fragment (d : Document) (change : FragmentUpdate) (ts te : Nat) : Document :=
  match mapLookup change.key d.fragments with
  | Option.none => d
  | some frag0 =>
    let frag := frag0.resize (frag0.byte_offset + ts) (frag0.byte_length - ts - te)
    { d with fragments := mapInsert change.move_to frag (mapRemove change.key d.fragments) }

/-- Model of `Document::apply_insert(change, (at_byte, insertion))` with its three
sub-cases (append / prepend / interior zero-width split). -/
def apply_insert (d : Document) (change : FragmentUpdate) (at_byte : Nat)
    (insertion : Fragment) : Document :=
  let offset := change.key + at_byte
  match mapLookup change.key d.fragments with
  | Option.none => d
  | some target_frag =>
    if change.key + target_frag.byte_length ≤ offset then
      { d with fragments := mapInsert offset insertion d.fragments }
    else if offset = change.key then
      let m2 := mapInsert (offset + insertion.byte_length) target_frag
        (mapRemove change.key d.fragments)
      { d with fragments := mapInsert offset insertion m2 }
    else
      match split_fragment d.fragments
          ⟨FragmentOperation.Split offset offset, change.key, change.key⟩ offset offset with
      | Option.none => d
      | some (m1, ((left_offset, left), (right_offset, right))) =>
        let m3 := mapInsert (right_offset + insertion.byte_length) right
          (mapInsert left_offset left m1)
        { d with fragments := mapInsert offset insertion m3 }

/-- Model of `Document::apply_change(change)`.  `None` does nothing; `Delete` removes
the entry at `key`; `Trim`/`Split`/`Insert` delegate. -/
def apply_change (d : Document) (change : FragmentUpdate) : Document :=
  match change.operation with
  | FragmentOperation.none => d
  | FragmentOperation.Delete _ => { d with fragments := mapRemove change.key d.fragments }
  | FragmentOperation.Trim s e => trim_fragment d change s e
  | FragmentOperation.Split stop resume =>
    match split_fragment d.fragments change stop resume with
    | Option.none => d
    | some (m1, ((left_offset, left), (right_offset, right))) =>
      { d with fragments := mapInsert right_offset right (mapInsert left_offset left m1) }
  | FragmentOperation.Insert at_byte frag => apply_insert d change at_byte frag

/-- Model of `Document::create_insertion_fragment(ins)`: records the pre-append length
of the insertions store, appends, and hands back the fragment. -/
def Document.create_insertion_fragment (d : Document) (ins : List Nat) :
    Document × Fragment :=
  ({ d with insertions := d.insertions.append ins },
   Fragment.of_insertion d.insertions.len ins.length)

/-- Model of `Document::insert(byte_offset, text)`: build the insertion fragment, plan,
then apply the changes in reverse (descending-key) order. -/
def Document.insert (d : Document) (byte_offset : Nat) (text : List Nat) :
    Option Document :=
  let df := d.create_insertion_fragment text
  (get_changes_for_insertion df.1.fragments byte_offset df.2).map (fun changes =>
    changes.reverse.foldl apply_change df.1)

/-- Model of `Document::delete(range)`: plan the deletion and apply the changes in
ascending order. -/
def Document.delete (d : Document) (a b : Nat) : Option Document :=
  (get_changes_for_deletion d.fragments (a, b)).map (fun changes =>
    changes.foldl apply_change d)

/-- Strictly-ascending keys: the order a `BTreeMap` guarantees and every map
built by `mapInsert`/`mapRemove` preserves. -/
abbrev keysSorted (m : List (Nat × Fragment)) : Prop :=
  m.Chain' (fun x y => x.1 < y.1)

/-- The classification the claims describe for a deletion `[a, b)` against a
fragment `[k, k + l)`, read as an ordered case list. -/
def claimClassify (k l a b : Nat) : FragmentUpdate :=
  if a ≤ k ∧ k + l ≤ b then
    { operation := FragmentOperation.Delete l, move_to := k, key := k }
  else if k < a ∧ a < k + l ∧ k < b ∧ b < k + l then
    { operation := FragmentOperation.Split a b, move_to := k, key := k }
  else if k < a ∧ a < k + l then
    { operation := FragmentOperation.Trim 0 (k + l - a), move_to := k, key := k }
  else if k < b ∧ b < k + l then
    { operation := FragmentOperation.Trim (b - k) 0, move_to := k, key := k }
  else
    { operation := FragmentOperation.none, move_to := k, key := k }

/-- The document of spec scenario "ab, then append cd": two fragments. -/
def twoFragDoc : Option Document := (Document.fromBytes [97, 98]).insert 2 [99, 100]

/-- Model of `twoFragDoc` followed by `insert(0, "XY")`. -/
def c4doc : Option Document := twoFragDoc.bind (fun d => d.insert 0 [88, 89])

/-- An `IndexedString` reachable from `from(init)` by a sequence of appends. -/
def buildStore (init : List Nat) (apps : List (List Nat)) : IndexedString :=
  apps.foldl IndexedString.append (IndexedString.fromBytes init)

/-- A reachable document used against C6: `Document::from("ab")`, then
`insert(2, "cd")`, then `delete(0..2)`; the surviving fragment keeps key 2
because the applier ignores `move_to` for `None` updates. -/
def c6doc : Option Document := twoFragDoc.bind (fun d => d.delete 0 2)

/-- C1.  The fragment keys of a reachable document need not form a contiguous
partition starting at 0: on `Document::from("abcd")` the single valid call
`delete(1..2)` (a split) leaves fragments keyed `0` (length 1) and `2`
(length 2), so key `0 + 1 ≠ 2` breaks contiguity and `len() = 4` differs from
the sum `1 + 2 = 3` of the fragment lengths.  The applier reinserts the right
half of a split at `resume` (the absolute deletion end) instead of shifting it
left, violating the claimed invariant. -/
theorem C1_partition_invariant_fails :
    ((Document.fromBytes [97, 98, 99, 100]).delete 1 2).map
        (fun d => (d.fragments.map (fun e => (e.1, e.2.byte_length)), d.lenOpt)) =
      some ([(0, 1), (2, 2)], some 4) ∧ 0 + 1 ≠ 2 ∧ 1 + 2 ≠ 4 := by
  refine ⟨rfl, by decide, by decide⟩

/-- C2.  The fragment index can become empty: on `Document::from("a")` the
valid call `delete(0..1)` plans `Delete(1)` for the only fragment and the
applier removes it, leaving zero fragments; `len()` then panics (modelled as
`none`).  The claim (and the code's own `expect` message) say the index is
never empty. -/
theorem C2_nonempty_invariant_fails :
    ((Document.fromBytes [97]).delete 0 1).map (fun d => (d.fragments, d.lenOpt)) =
      some ([], Option.none) := rfl

/-- C3.  The delete length law fails: `Document::from("abcd")` has `len() = 4`;
after `delete(1..2)` the claim demands `4 - (min 2 4 - 1) = 3`, but the code
reports `len() = 4` because the split's right half is reinserted at the
pre-deletion position `2`. -/
theorem C3_delete_length_law_fails :
    (Document.fromBytes [97, 98, 99, 100]).lenOpt = some 4 ∧
    ((Document.fromBytes [97, 98, 99, 100]).delete 1 2).bind Document.lenOpt = some 4 ∧
    4 - (min 2 4 - 1) = 3 := by
  refine ⟨rfl, rfl, by decide⟩

/-- C4.  The insert length law fails: from `Document::from("ab")` the valid
call `insert(2, "cd")` yields a two-fragment document of length 4 rendering
"abcd"; the subsequent valid call `insert(0, "XY")` should give length 6 and
render "XYabcd", but the prepend path reinserts the target fragment at
`0 + |"XY"| = 2`, overwriting the fragment already keyed `2`, so the result
renders "XYab" (bytes [88, 89, 97, 98]) with `len() = 4 ≠ 4 + 2`. -/
theorem C4_insert_length_law_fails :
    twoFragDoc.bind Document.lenOpt = some 4 ∧
    c4doc.bind Document.lenOpt = some 4 ∧
    c4doc.map Document.render = some [88, 89, 97, 98] ∧
    (4 : Nat) ≠ 4 + 2 := by
  refine ⟨rfl, rfl, rfl, by decide⟩

/-- C7.  The insert/delete round trip fails: `twoFragDoc` renders "abcd"
(bytes [97, 98, 99, 100]); after `insert(0, "XY")` and `delete(0..2)` the
document renders "ab" — the fragment "cd" was overwritten during the insert,
so the round trip does not restore the original content. -/
theorem C7_roundtrip_fails :
    twoFragDoc.map Document.render = some [97, 98, 99, 100] ∧
    (c4doc.bind (fun d => d.delete 0 2)).map Document.render = some [97, 98] ∧
    ([97, 98] : List Nat) ≠ [97, 98, 99, 100] := by
  refine ⟨rfl, rfl, by decide⟩

/-- C9.  An empty-range delete is not a no-op: on `Document::new()` (one
zero-length fragment, `len() = some 0`) the valid call `delete(0..0)`
classifies the fragment as covered (`0 ≤ 0 ∧ 0 ≥ 0`), emits `Delete(0)`, and
removes it; the index becomes empty and `len()` panics (`none ≠ some 0`). -/
theorem C9_empty_delete_not_noop :
    Document.new.lenOpt = some 0 ∧
    (Document.new.delete 0 0).map (fun d => (d.fragments, d.lenOpt, d.render)) =
      some ([], Option.none, []) ∧
    (Option.none : Option Nat) ≠ some 0 := by
  refine ⟨rfl, rfl, by decide⟩

/-- C8 counterexample.  `insert(0, "")` on `Document::from("a")` (offset
`0 ≤ len() = 1`) takes the prepend path: the target fragment is reinserted at
`0 + 0 = 0` and then overwritten by the zero-length insertion fragment, so the
document renders "" instead of "a" and `len()` drops from 1 to 0. -/
theorem C8_counterexample_empty_insert_loses_text :
    (Document.fromBytes [97]).lenOpt = some 1 ∧
    ((Document.fromBytes [97]).insert 0 []).map
        (fun d => (d.render, d.lenOpt)) = some ([], some 0) ∧
    ([] : List Nat) ≠ [97] := by
  refine ⟨rfl, rfl, by decide⟩

/-- C6 counterexample.  On the reachable document `c6doc` (whose only
fragment is keyed 2, `len() = some 4`) the insertion planner at start byte
`1 ≤ 4` finds no fragment with key `≤ 1` and panics (`none`): no update list
of the claimed shape is produced. -/
theorem C6_counterexample_planner_panics :
    c6doc.map (fun d => (d.fragments, d.lenOpt)) =
      some ([(2, Fragment.of_insertion 0 2)], some 4) ∧
    (c6doc.bind (fun d =>
      get_changes_for_insertion d.fragments 1 (Fragment.of_insertion 4 1))) =
      Option.none := by
  refine ⟨rfl, rfl⟩

/-- C5.  For every fragment `F = [k, k + l)` and deletion range `D = [a, b)`
with `a ≤ b`, the planner's classifier agrees with the claim's ordered case
list (`claimClassify`): `Delete(l)` when `D ⊇ F`; `Split(a, b)` when both
endpoints of `D` are strictly interior to `F`; `Trim(0, k + l - a)` when `D`
begins strictly inside `F` and does not end strictly inside it;
`Trim(b - k, 0)` when `D` ends strictly inside `F` and does not begin strictly
inside it; and `None` otherwise — and in that residual case `D` does not touch
`F` (their intersection is empty). -/
theorem C5_deletion_classifier (k l a b : Nat) (hab : a ≤ b) :
    get_operation_for_fragment ⟨(k, k + l), (a, b)⟩ = claimClassify k l a b ∧
      (¬(a ≤ k ∧ k + l ≤ b) → ¬(k < a ∧ a < k + l) → ¬(k < b ∧ b < k + l) →
        ¬(max a k < min b (k + l))) := by
  constructor
  · unfold get_operation_for_fragment claimClassify
    dsimp only
    split_ifs <;>
      first
        | rfl
        | (exfalso; omega)
        | (rw [Nat.add_sub_cancel_left])
  · intro h1 h3 h4
    omega

/-- C5 witness: the classifier applied to the fragment `[0, 4)` and the
deletion `[1, 2)` (a strict interior split). -/
theorem C5_deletion_classifier_witness :
    1 ≤ 2 ∧
      (get_operation_for_fragment ⟨(0, 0 + 4), (1, 2)⟩ = claimClassify 0 4 1 2 ∧
        (¬(1 ≤ 0 ∧ 0 + 4 ≤ 2) → ¬(0 < 1 ∧ 1 < 0 + 4) → ¬(0 < 2 ∧ 2 < 0 + 4) →
          ¬(max 1 0 < min 2 (0 + 4)))) :=
  ⟨by decide, C5_deletion_classifier 0 4 1 2 (by decide)⟩

/-- Membership in `setInsert` (the `BTreeSet::insert` model). -/
theorem mem_setInsert (s : List Nat) (x j : Nat) :
    j ∈ setInsert s x ↔ j ∈ s ∨ j = x := by
  unfold setInsert
  split_ifs with h
  · constructor
    · exact Or.inl
    · rintro (hj | rfl)
      · exact hj
      · exact h
  · simp

/-- Membership after folding `setInsert` over a list of new positions. -/
theorem mem_foldl_setInsert (l : List Nat) :
    ∀ (s : List Nat) (j : Nat), j ∈ l.foldl setInsert s ↔ j ∈ s ∨ j ∈ l := by
  induction l with
  | nil => intro s j; simp
  | cons x rest ih =>
    intro s j
    simp only [List.foldl_cons, ih, mem_setInsert, List.mem_cons]
    tauto

/-- Model of `find_linebreaks t off` holds exactly the positions `off + i` with
`t.get? i = some 10`. -/
theorem mem_find_linebreaks (t : List Nat) :
    ∀ (off j : Nat), j ∈ IndexedString.find_linebreaks t off ↔
      ∃ i, t.get? i = some 10 ∧ j = off + i := by
  induction t with
  | nil => intro off j; simp [IndexedString.find_linebreaks]
  | cons c rest ih =>
    intro off j
    unfold IndexedString.find_linebreaks
    split_ifs with hc
    · subst hc
      rw [List.mem_cons, ih]
      constructor
      · rintro (rfl | ⟨i, hi, rfl⟩)
        · exact ⟨0, by simp, by omega⟩
        · exact ⟨i + 1, by simpa using hi, by omega⟩
      · rintro ⟨i, hi, rfl⟩
        cases i with
        | zero => exact Or.inl (by omega)
        | succ i =>
          exact Or.inr ⟨i, by simpa using hi, by omega⟩
    · rw [ih]
      constructor
      · rintro ⟨i, hi, rfl⟩
        exact ⟨i + 1, by simpa using hi, by omega⟩
      · rintro ⟨i, hi, rfl⟩
        cases i with
        | zero =>
          exact absurd (by simpa using hi : c = 10) hc
        | succ i =>
          exact ⟨i, by simpa using hi, by omega⟩

/-- The store/index consistency predicate of the claim. -/
def linebreaksConsistent (s : IndexedString) : Prop :=
  ∀ i, i ∈ s.linebreaks ↔ s.source.get? i = some 10

/-- Model of `append` describes its new line-break set exactly: previous positions are
kept and position `old_len + i` is added for each `0x0A` at local index `i`. -/
theorem append_linebreaks_spec (s : IndexedString) (t : List Nat) (j : Nat) :
    j ∈ (s.append t).linebreaks ↔
      j ∈ s.linebreaks ∨ ∃ i, t.get? i = some 10 ∧ j = s.source.length + i := by
  unfold IndexedString.append
  rw [mem_foldl_setInsert, mem_find_linebreaks]

/-- Model of `append` preserves store/index consistency. -/
theorem append_preserves_consistency (s : IndexedString) (t : List Nat)
    (h : linebreaksConsistent s) : linebreaksConsistent (s.append t) := by
  intro i
  rw [append_linebreaks_spec]
  show _ ↔ (s.source ++ t).get? i = some 10
  by_cases hi : i < s.source.length
  · rw [List.get?_append hi]
    constructor
    · rintro (hmem | ⟨i', _, rfl⟩)
      · exact (h i).mp hmem
      · exfalso; omega
    · intro hsrc
      exact Or.inl ((h i).mpr hsrc)
  · rw [List.get?_append_right (by omega)]
    constructor
    · rintro (hmem | ⟨i', hi', rfl⟩)
      · exfalso
        have h10 := (h i).mp hmem
        rw [List.get?_eq_none.mpr (by omega)] at h10
        exact Option.noConfusion h10
      · have hdiff : s.source.length + i' - s.source.length = i' := by omega
        rw [hdiff]
        exact hi'
    · intro hsrc
      right
      exact ⟨i - s.source.length, hsrc, by omega⟩

/-- Model of `from(bytes)` builds a consistent index. -/
theorem fromBytes_consistency (init : List Nat) :
    linebreaksConsistent (IndexedString.fromBytes init) := by
  intro i
  show i ∈ (IndexedString.find_linebreaks init 0).foldl setInsert [] ↔ _
  rw [mem_foldl_setInsert, mem_find_linebreaks]
  constructor
  · rintro (h | ⟨i', hi', rfl⟩)
    · simp at h
    · simpa using hi'
  · intro h
    exact Or.inr ⟨i, h, by omega⟩

/-- Consistency propagates through any sequence of appends. -/
theorem foldl_append_consistency (apps : List (List Nat)) :
    ∀ s : IndexedString, linebreaksConsistent s →
      linebreaksConsistent (apps.foldl IndexedString.append s) := by
  induction apps with
  | nil => intro s hs; exact hs
  | cons t rest ih =>
    intro s hs
    exact ih (s.append t) (append_preserves_consistency s t hs)

/-- C10.  For every `IndexedString` built by `from(bytes)` followed by any
sequence of `append` calls, position `i` is in the line-break index iff byte
`i` of the store is `0x0A`; and each single `append` extends the index by
exactly the positions `old_len + i` for the `0x0A` bytes at local index `i`
of the appended text, keeping every previously indexed position. -/
theorem C10_linebreak_index :
    (∀ (init : List Nat) (apps : List (List Nat)) (i : Nat),
        i ∈ (buildStore init apps).linebreaks ↔
          (buildStore init apps).source.get? i = some 10) ∧
    (∀ (s : IndexedString) (t : List Nat) (j : Nat),
        j ∈ (s.append t).linebreaks ↔
          j ∈ s.linebreaks ∨ ∃ i, t.get? i = some 10 ∧ j = s.source.length + i) := by
  constructor
  · intro init apps i
    exact foldl_append_consistency apps (IndexedString.fromBytes init)
      (fromBytes_consistency init) i
  · exact append_linebreaks_spec

/-- Keys strictly below `k` are transparent to the `range(k0..)` filter. -/
theorem filter_ge_of_lt_eq_nil (k0 : Nat) (l : List (Nat × Fragment))
    (h : ∀ x ∈ l, x.1 < k0) : l.filter (fun x => k0 ≤ x.1) = [] := by
  induction l with
  | nil => rfl
  | cons e rest ih =>
    have he := h e (by simp)
    rw [List.filter_cons, if_neg (by simp; omega)]
    exact ih (fun x hx => h x (by simp [hx]))

/-- Keys at least `k0` all pass the `range(k0..)` filter. -/
theorem filter_ge_of_ge_eq_self (k0 : Nat) (l : List (Nat × Fragment))
    (h : ∀ x ∈ l, k0 ≤ x.1) : l.filter (fun x => k0 ≤ x.1) = l := by
  induction l with
  | nil => rfl
  | cons e rest ih =>
    rw [List.filter_cons, if_pos (by simp; exact h e (by simp))]
    rw [ih (fun x hx => h x (by simp [hx]))]

/-- The tail of the insertion plan: all entries with enumeration index `≥ 1`
are mapped to `None` updates shifted right by the insertion length. -/
theorem insertion_plan_tail (start_byte : Nat) (ins : Fragment)
    (l : List (Nat × Fragment)) :
    ∀ n : Nat,
      (l.enumFrom (n + 1)).map (fun p =>
        if p.1 = 0 then
          ({ operation := FragmentOperation.Insert (start_byte - p.2.1) ins
             move_to := 0 + p.2.1
             key := p.2.1 } : FragmentUpdate)
        else
          ({ operation := FragmentOperation.none
             move_to := ins.byte_length + p.2.1
             key := p.2.1 } : FragmentUpdate)) =
      l.map (fun e =>
        ({ operation := FragmentOperation.none
           move_to := ins.byte_length + e.1
           key := e.1 } : FragmentUpdate)) := by
  induction l with
  | nil => intro n; rfl
  | cons e rest ih =>
    intro n
    rw [List.enumFrom_cons, List.map_cons, List.map_cons]
    refine congrArg₂ List.cons ?_ (ih (n + 1))
    exact if_neg (by omega : ¬ n + 1 = 0)

/-- C6 amended: for every fragment index with strictly ascending keys that
contains some key `≤ s` (true of every document satisfying the spec's
smallest-key-0 invariant), the insertion planner produces exactly one update
per affected fragment, in the stored (ascending) order: `Insert(s − k0, ins)`
with `move_to = k0` for the covering fragment `k0`, and `None` with
`move_to = key + |ins|` for every later fragment. -/
theorem C6_amended_insertion_plan (m : List (Nat × Fragment)) (s : Nat)
    (ins : Fragment) (hs : keysSorted m) (h : ∃ e ∈ m, e.1 ≤ s) :
    ∃ k0 f0 rest, floorEntry s m = some (k0, f0) ∧
      m.filter (fun x => k0 ≤ x.1) = (k0, f0) :: rest ∧
      (∀ e ∈ rest, k0 < e.1) ∧
      get_changes_for_insertion m s ins =
        some ({ operation := FragmentOperation.Insert (s - k0) ins
                move_to := 0 + k0
                key := k0 } ::
          rest.map (fun e =>
            { operation := FragmentOperation.none
              move_to := ins.byte_length + e.1
              key := e.1 })) := by
  obtain ⟨e0, he0m, he0s⟩ := h
  have hne : m.filter (fun x => x.1 ≤ s) ≠ [] := by
    intro hnil
    have := List.filter_eq_nil_iff.mp hnil e0 he0m
    simp at this
    omega
  cases hget : (m.filter (fun x => x.1 ≤ s)).getLast hne with
  | mk k0 f0 =>
  have hef : floorEntry s m = some (k0, f0) := by
    unfold floorEntry
    rw [List.getLast?_eq_getLast_of_ne_nil hne, hget]
  have hmemf : (k0, f0) ∈ m.filter (fun x => x.1 ≤ s) := by
    rw [← hget]
    exact List.getLast_mem hne
  have hk0m : (k0, f0) ∈ m := (List.mem_filter.mp hmemf).1
  obtain ⟨pre, post, hsplit⟩ := List.append_of_mem hk0m
  haveI : IsTrans (Nat × Fragment) (fun x y => x.1 < y.1) :=
    ⟨fun _ _ _ h1 h2 => Nat.lt_trans h1 h2⟩
  have hpw : m.Pairwise (fun x y => x.1 < y.1) :=
    (List.chain'_iff_pairwise).mp hs
  rw [hsplit] at hpw
  have hsides := List.pairwise_append.mp hpw
  have hpre_lt : ∀ x ∈ pre, x.1 < k0 :=
    fun x hx => hsides.2.2 x hx (k0, f0) (by simp)
  have hpost_gt : ∀ y ∈ post, k0 < y.1 :=
    fun y hy => (List.pairwise_cons.mp hsides.2.1).1 y hy
  have hfilter : m.filter (fun x => k0 ≤ x.1) = (k0, f0) :: post := by
    rw [hsplit, List.filter_append]
    rw [filter_ge_of_lt_eq_nil k0 pre hpre_lt]
    rw [List.filter_cons, if_pos (by simp)]
    rw [filter_ge_of_ge_eq_self k0 post (fun y hy => Nat.le_of_lt (hpost_gt y hy))]
    rfl
  refine ⟨k0, f0, post, hef, hfilter, hpost_gt, ?_⟩
  unfold get_changes_for_insertion find_affected_fragments
  rw [hef]
  rw [Option.map_some', Option.map_some']
  have haff : (m.filter (fun x => (k0, f0).1 ≤ x.1)) = (k0, f0) :: post := hfilter
  rw [haff]
  rw [List.enum_cons, List.map_cons]
  refine congrArg some (congrArg₂ List.cons (if_pos rfl) ?_)
  exact insertion_plan_tail s ins post 0

/-- C6 witness: the amended insertion-plan theorem applied to a one-fragment
index `{0 ↦ Insertion(0, 2)}`, start byte 1. -/
theorem C6_amended_insertion_plan_witness :
    keysSorted [(0, Fragment.of_insertion 0 2)] ∧
    (∃ e ∈ [(0, Fragment.of_insertion 0 2)], e.1 ≤ 1) ∧
    (∃ k0 f0 rest,
      floorEntry 1 [(0, Fragment.of_insertion 0 2)] = some (k0, f0) ∧
      List.filter (fun x => k0 ≤ x.1) [(0, Fragment.of_insertion 0 2)] = (k0, f0) :: rest ∧
      (∀ e ∈ rest, k0 < e.1) ∧
      get_changes_for_insertion [(0, Fragment.of_insertion 0 2)] 1 (Fragment.of_insertion 2 3) =
        some ({ operation := FragmentOperation.Insert (1 - k0) (Fragment.of_insertion 2 3)
                move_to := 0 + k0
                key := k0 } ::
          rest.map (fun e =>
            { operation := FragmentOperation.none
              move_to := (Fragment.of_insertion 2 3).byte_length + e.1
              key := e.1 }))) :=
  ⟨List.chain'_singleton _, by decide,
    C6_amended_insertion_plan [(0, Fragment.of_insertion 0 2)] 1 (Fragment.of_insertion 2 3)
      (List.chain'_singleton _) (by decide)⟩

/-- Model of `mapInsert` with a key above every present key appends at the end. -/
theorem mapInsert_append_of_lt (k : Nat) (v : Fragment) :
    ∀ l : List (Nat × Fragment), (∀ e ∈ l, e.1 < k) → mapInsert k v l = l ++ [(k, v)] := by
  intro l
  induction l with
  | nil => intro _; rfl
  | cons e rest ih =>
    intro h
    have he := h e (by simp)
    unfold mapInsert
    rw [if_neg (by omega), if_neg (by omega)]
    rw [ih (fun x hx => h x (by simp [hx]))]
    rfl

/-- Model of `mapInsert` at the key of the final entry replaces that entry. -/
theorem mapInsert_replace_last (k : Nat) (f v : Fragment) :
    ∀ init : List (Nat × Fragment), (∀ e ∈ init, e.1 < k) →
      mapInsert k v (init ++ [(k, f)]) = init ++ [(k, v)] := by
  intro init
  induction init with
  | nil =>
    intro _
    rw [List.nil_append]
    unfold mapInsert
    rw [if_neg (by simp), if_pos rfl]
    rfl
  | cons e rest ih =>
    intro h
    have he := h e (by simp)
    rw [List.cons_append]
    unfold mapInsert
    rw [if_neg (by omega), if_neg (by omega)]
    rw [ih (fun x hx => h x (by simp [hx]))]
    rfl

/-- Model of `mapLookup` finds the final entry when every earlier key differs. -/
theorem mapLookup_last (k : Nat) (f : Fragment) :
    ∀ init : List (Nat × Fragment), (∀ e ∈ init, e.1 < k) →
      mapLookup k (init ++ [(k, f)]) = some f := by
  intro init
  induction init with
  | nil =>
    intro _
    rw [List.nil_append]
    unfold mapLookup
    rw [if_pos rfl]
  | cons e rest ih =>
    intro h
    have he := h e (by simp)
    rw [List.cons_append]
    unfold mapLookup
    rw [if_neg (by omega)]
    exact ih (fun x hx => h x (by simp [hx]))

/-- Appending the empty byte string to an `IndexedString` changes nothing. -/
theorem IndexedString.append_nil_eq (s : IndexedString) : s.append [] = s := by
  cases s with
  | mk src lb =>
    unfold IndexedString.append IndexedString.find_linebreaks
    simp

/-- The append path of `apply_insert`: when the insertion offset reaches the
end of the target fragment, the insertion fragment is simply added at the
absolute offset. -/
theorem apply_insert_append_case (d : Document) (u : FragmentUpdate)
    (at_byte : Nat) (ins f : Fragment)
    (hlk : mapLookup u.key d.fragments = some f)
    (hcase : u.key + f.byte_length ≤ u.key + at_byte) :
    apply_insert d u at_byte ins =
      { d with fragments := (mapInsert (u.key + at_byte) ins d.fragments) } := by
  unfold apply_insert
  simp only [hlk]
  rw [if_pos hcase]

/-- C8 amended: on any document whose fragment index is key-sorted and
non-empty (`len()` defined, equal to `L`), inserting the empty string at the
end offset `L` is a no-op for both `render()` and `len()`: the plan is a
single `Insert(L − k, ε)` on the last fragment, the applier takes the append
path, and the appended fragment is zero-length. -/
theorem C8_amended_empty_insert_at_end (d : Document) (L : Nat)
    (hs : keysSorted d.fragments) (hL : d.lenOpt = some L) :
    ∃ d', d.insert L [] = some d' ∧ d'.render = d.render ∧ d'.lenOpt = some L := by
  have hne : d.fragments ≠ [] := by
    intro h
    rw [Document.lenOpt, h] at hL
    simp at hL
  cases hlast : d.fragments.getLast hne with
  | mk k f =>
  have hdecomp : d.fragments.dropLast ++ [(k, f)] = d.fragments := by
    rw [← hlast]
    exact List.dropLast_append_getLast hne
  have hLval : L = k + f.byte_length := by
    unfold Document.lenOpt at hL
    rw [List.getLast?_eq_getLast_of_ne_nil hne, hlast, Option.map_some'] at hL
    exact (Option.some_inj.mp hL).symm
  haveI : IsTrans (Nat × Fragment) (fun x y => x.1 < y.1) :=
    ⟨fun _ _ _ h1 h2 => Nat.lt_trans h1 h2⟩
  have hpw : d.fragments.Pairwise (fun x y => x.1 < y.1) :=
    (List.chain'_iff_pairwise).mp hs
  rw [← hdecomp] at hpw
  have hpre : ∀ e ∈ d.fragments.dropLast, e.1 < k :=
    fun e he => (List.pairwise_append.mp hpw).2.2 e he (k, f) (by simp)
  have hkeys : ∀ e ∈ d.fragments, e.1 ≤ L := by
    intro e he
    rw [← hdecomp] at he
    rcases List.mem_append.mp he with hpre' | hlast'
    · have := hpre e hpre'
      omega
    · have : e = (k, f) := by simpa using hlast'
      rw [this]
      omega
  have hfilter_all : d.fragments.filter (fun x => x.1 ≤ L) = d.fragments :=
    List.filter_eq_self.mpr (fun e he => by simpa using hkeys e he)
  have hfloor : floorEntry L d.fragments = some (k, f) := by
    unfold floorEntry
    rw [hfilter_all, List.getLast?_eq_getLast_of_ne_nil hne, hlast]
  have haffected : find_affected_fragments d.fragments L = some [(k, f)] := by
    unfold find_affected_fragments
    rw [hfloor, Option.map_some']
    refine congrArg some ?_
    show d.fragments.filter (fun x => k ≤ x.1) = [(k, f)]
    conv_lhs => rw [← hdecomp]
    rw [List.filter_append, filter_ge_of_lt_eq_nil k _ hpre]
    rw [List.filter_cons, if_pos (by simp)]
    rfl
  have hoff : k + (L - k) = L := by omega
  have hlookup : mapLookup k d.fragments = some f := by
    rw [← hdecomp]
    exact mapLookup_last k f _ hpre
  refine ⟨{ d with fragments := (mapInsert L (Fragment.of_insertion d.insertions.len 0)
      d.fragments) }, ?_, ?_, ?_⟩
  · show (get_changes_for_insertion d.fragments L
        (Fragment.of_insertion d.insertions.len 0)).map
        (fun changes => changes.reverse.foldl apply_change
          { d with insertions := d.insertions.append [] }) = _
    rw [IndexedString.append_nil_eq]
    have hplan : get_changes_for_insertion d.fragments L
        (Fragment.of_insertion d.insertions.len 0) =
        some [{ operation := FragmentOperation.Insert (L - k)
                  (Fragment.of_insertion d.insertions.len 0)
                move_to := 0 + k
                key := k }] := by
      unfold get_changes_for_insertion
      rw [haffected, Option.map_some']
      rfl
    rw [hplan, Option.map_some']
    refine congrArg some ?_
    have hd : ({ d with insertions := d.insertions } : Document) = d := rfl
    rw [hd]
    have happly := apply_insert_append_case d
      { operation := FragmentOperation.Insert (L - k)
          (Fragment.of_insertion d.insertions.len 0)
        move_to := 0 + k
        key := k }
      (L - k) (Fragment.of_insertion d.insertions.len 0) f hlookup
      (by show k + f.byte_length ≤ k + (L - k); omega)
    refine Eq.trans happly ?_
    show ({ d with fragments := (mapInsert (k + (L - k))
        (Fragment.of_insertion d.insertions.len 0) d.fragments) } : Document) = _
    rw [hoff]
  · rcases Nat.eq_zero_or_pos f.byte_length with hf0 | hfpos
    · have hLk : L = k := by omega
      rw [hLk]
      conv_lhs => rw [← hdecomp]
      rw [mapInsert_replace_last k f (Fragment.of_insertion d.insertions.len 0)
        d.fragments.dropLast hpre]
      unfold Document.render Document.get_fragment_source
      dsimp only
      conv_rhs => rw [← hdecomp]
      rw [List.map_append, List.map_append, List.flatten_append, List.flatten_append]
      refine congrArg₂ HAppend.hAppend rfl ?_
      simp [Fragment.get_slice, Fragment.of_insertion, Fragment.new, hf0]
    · have hall : ∀ e ∈ d.fragments, e.1 < L := by
        intro e he
        rw [← hdecomp] at he
        rcases List.mem_append.mp he with hpre' | hlast'
        · have := hpre e hpre'
          omega
        · have : e = (k, f) := by simpa using hlast'
          rw [this]
          omega
      rw [mapInsert_append_of_lt L (Fragment.of_insertion d.insertions.len 0)
        d.fragments hall]
      unfold Document.render Document.get_fragment_source
      dsimp only
      rw [List.map_append, List.flatten_append]
      refine Eq.trans (congrArg _ ?_) (List.append_nil _)
      simp [Fragment.get_slice, Fragment.of_insertion, Fragment.new]
  · rcases Nat.eq_zero_or_pos f.byte_length with hf0 | hfpos
    · have hLk : L = k := by omega
      rw [hLk]
      conv_lhs => rw [← hdecomp]
      rw [mapInsert_replace_last k f (Fragment.of_insertion d.insertions.len 0)
        d.fragments.dropLast hpre]
      unfold Document.lenOpt
      dsimp only
      rw [List.getLast?_concat, Option.map_some']
      rfl
    · have hall : ∀ e ∈ d.fragments, e.1 < L := by
        intro e he
        rw [← hdecomp] at he
        rcases List.mem_append.mp he with hpre' | hlast'
        · have := hpre e hpre'
          omega
        · have : e = (k, f) := by simpa using hlast'
          rw [this]
          omega
      rw [mapInsert_append_of_lt L (Fragment.of_insertion d.insertions.len 0)
        d.fragments hall]
      unfold Document.lenOpt
      dsimp only
      rw [List.getLast?_concat, Option.map_some']
      rfl

/-- C8 witness: the amended theorem applied to `Document::from("a")`. -/
theorem C8_amended_empty_insert_at_end_witness :
    keysSorted (Document.fromBytes [97]).fragments ∧
    (Document.fromBytes [97]).lenOpt = some 1 ∧
    (∃ d', (Document.fromBytes [97]).insert 1 [] = some d' ∧
      d'.render = (Document.fromBytes [97]).render ∧ d'.lenOpt = some 1) :=
  ⟨List.chain'_singleton _, by decide,
    C8_amended_empty_insert_at_end (Document.fromBytes [97]) 1 (List.chain'_singleton _)
      (by decide)⟩

end PieceTable
